import Mathlib

/-!
Shallow embedding of the Sudoku engine of `src/script.js`
(class `SudokuGame`): the constraint checker `isValid`, the
backtracking filler `fillBoard` / `generateCompleteSudoku`, the
solution counter `hasUniqueSolution`, the puzzle deriver
`createPuzzle`, and the difficulty lookup `getCellsToRemove`.

A grid is a 9×9 matrix of naturals, 0 denoting an empty cell.  The
JavaScript code mutates a shared array; here every mutation is explicit
state passing: each function takes the grid and returns the new grid.
The recursion of `fillBoard` and of the inner `solve` of
`hasUniqueSolution` is bounded by a fuel argument; 82 units of fuel are
always sufficient because each nested call fills one of the at most 81
empty cells (proved below).  The randomness of `shuffleArray` is
externalised: the shuffled candidate lists and the shuffled position
list are parameters.
-/

/-- A 9×9 Sudoku grid: `g r c` is the value of row `r`, column `c`,
with `0` meaning empty (`this.board` etc. in the source). -/
def Grid : Type := Fin 9 → Fin 9 → ℕ

instance : DecidableEq Grid := by unfold Grid; infer_instance

/-- Write value `v` into cell `(r, c)` (the assignment
`board[row][col] = num` of the source). -/
def setCell (g : Grid) (r c : Fin 9) (v : ℕ) : Grid :=
  fun r' c' => if r' = r ∧ c' = c then v else g r' c'

/-- All 81 positions in row-major order, the scan order of the nested
`for (row) for (col)` loops of the source. -/
def allPos : List (Fin 9 × Fin 9) :=
  (List.finRange 9).flatMap (fun r => (List.finRange 9).map (fun c => (r, c)))

/-- The first empty cell in row-major scan order, `none` when the grid
is full (the `if (board[row][col] === 0)` scan of the source). -/
def firstEmpty (g : Grid) : Option (Fin 9 × Fin 9) :=
  allPos.find? (fun p => g p.1 p.2 == 0)

/-- Number of empty cells of the grid. -/
def countZeros (g : Grid) : ℕ :=
  (allPos.filter (fun p => g p.1 p.2 == 0)).length

/-- The all-empty grid (`Array(9).fill(0).map(() => Array(9).fill(0))`). -/
def emptyGrid : Grid := fun _ _ => 0

/-- Row or column index of a cell of the 3×3 box of `a`:
`Math.floor(a / 3) * 3 + i` of the source. -/
def boxIdx (a : Fin 9) (i : Fin 3) : Fin 9 :=
  ⟨a.val / 3 * 3 + i.val, by omega⟩

/-- The constraint checker `isValid(board, row, col, num)` of the
source: scan the row, then the column, then the 3×3 box, returning
`false` on the first occurrence of `num`. -/
def isValid (g : Grid) (row col : Fin 9) (num : ℕ) : Bool :=
  if (List.finRange 9).any (fun c => g row c == num) then false
  else if (List.finRange 9).any (fun r => g r col == num) then false
  else if (List.finRange 3).any (fun r =>
      (List.finRange 3).any (fun c => g (boxIdx row r) (boxIdx col c) == num))
    then false
  else true

/-- The candidate loop `for (let num = 1; num <= 9; num++)` of the
inner `solve` of `hasUniqueSolution`: for each valid candidate, write
it, recurse through `next`, then erase the cell again
(`b[row][col] = 0`), threading the solution counter. -/
def solveCands (next : Grid → ℕ → ℕ × Grid) :
    List ℕ → Grid → Fin 9 → Fin 9 → ℕ → ℕ × Grid
  | [], g, _, _, count => (count, g)
  | v :: rest, g, r, c, count =>
    if isValid g r c v then
      let p := next (setCell g r c v) count
      solveCands next rest (setCell p.2 r c 0) r c p.1
    else solveCands next rest g r c count

/-- The recursive `solve` of `hasUniqueSolution`: abandon when the
counter exceeds 1, count a full assignment, otherwise try candidates
1–9 at the first empty cell.  `fuel` bounds the recursion depth; it is
only a bound, the source recursion always terminates within it. -/
def solveGo : ℕ → Grid → ℕ → ℕ × Grid
  | 0, g, count => (count, g)
  | fuel + 1, g, count =>
    if 1 < count then (count, g)
    else
      match firstEmpty g with
      | none => (count + 1, g)
      | some (r, c) =>
        solveCands (solveGo fuel) [1, 2, 3, 4, 5, 6, 7, 8, 9] g r c count

/-- `hasUniqueSolution(board)` of the source: run the counting search
from counter 0 and test whether exactly one solution was found. -/
def hasUniqueSolution (g : Grid) : Bool :=
  (solveGo 82 g 0).1 == 1

/-- The candidate loop of `fillBoard`: for each valid candidate of the
shuffled list, write it, recurse through `next`; on success return at
once keeping the assignment, on failure erase the cell
(`board[row][col] = 0`) and try the next candidate.  The supply index
`k` threads which shuffle is consumed next. -/
def fillCands (next : Grid → ℕ → Bool × Grid × ℕ) :
    List ℕ → Grid → Fin 9 → Fin 9 → ℕ → Bool × Grid × ℕ
  | [], g, _, _, k => (false, g, k)
  | v :: rest, g, r, c, k =>
    if isValid g r c v then
      match next (setCell g r c v) k with
      | (true, g2, k2) => (true, g2, k2)
      | (false, g2, k2) => fillCands next rest (setCell g2 r c 0) r c k2
    else fillCands next rest g r c k

/-- The recursive `fillBoard(board)` of the source: scan for the first
empty cell; if none, the board is complete (`return true`); otherwise
shuffle the numbers 1–9 (`supply k` is the k-th shuffle produced by
`shuffleArray`) and try them in order.  `fuel` bounds the recursion
depth as in `solveGo`. -/
def fillGo (supply : ℕ → List ℕ) : ℕ → Grid → ℕ → Bool × Grid × ℕ
  | 0, g, k => (false, g, k)
  | fuel + 1, g, k =>
    match firstEmpty g with
    | none => (true, g, k)
    | some (r, c) => fillCands (fillGo supply fuel) (supply k) g r c (k + 1)

/-- `fillBoard` run with always-sufficient fuel from supply index 0. -/
def fillBoard (g : Grid) (supply : ℕ → List ℕ) : Bool × Grid × ℕ :=
  fillGo supply 82 g 0

/-- `generateCompleteSudoku()` of the source: run `fillBoard` on the
all-empty grid and return the resulting board (the boolean result of
`fillBoard` is ignored by the source). -/
def generateCompleteSudoku (supply : ℕ → List ℕ) : Grid :=
  (fillBoard emptyGrid supply).2.1

/-- `getCellsToRemove()` of the source: the difficulty switch. -/
def getCellsToRemove (difficulty : String) : ℕ :=
  if difficulty = "easy" then 30
  else if difficulty = "medium" then 45
  else if difficulty = "hard" then 55
  else 30

/-- The removal loop of `createPuzzle`: walk the shuffled position
list while `removed < target`; clear the cell, keep the clear when
`hasUniqueSolution` holds on (a copy of) the board, otherwise restore
the backup. -/
def createPuzzleGo (target : ℕ) : List (Fin 81) → Grid → ℕ → Grid
  | [], b, _ => b
  | idx :: rest, b, removed =>
    if removed < target then
      let r : Fin 9 := ⟨idx.val / 9, by omega⟩
      let c : Fin 9 := ⟨idx.val % 9, by omega⟩
      let backup := b r c
      let b1 := setCell b r c 0
      if hasUniqueSolution b1 then createPuzzleGo target rest b1 (removed + 1)
      else createPuzzleGo target rest (setCell b1 r c backup) removed
    else b

/-- `createPuzzle(board)` of the source, with the shuffled list of the
81 cell indices (`attempts`) and the target removal count
(`getCellsToRemove`) passed as parameters. -/
def createPuzzle (board : Grid) (target : ℕ) (attempts : List (Fin 81)) : Grid :=
  createPuzzleGo target attempts board 0

/-- A grid is full when no cell is empty. -/
def isFull (g : Grid) : Prop := ∀ r c : Fin 9, g r c ≠ 0

instance (g : Grid) : Decidable (isFull g) := by unfold isFull; infer_instance

/-! ### Basic facts about positions, cells and zero counts -/

lemma mem_allPos (p : Fin 9 × Fin 9) : p ∈ allPos := by
  simp only [allPos, List.mem_flatMap, List.mem_map, List.mem_finRange]
  exact ⟨p.1, trivial, p.2, trivial, rfl⟩

lemma nodup_allPos : allPos.Nodup := by decide

lemma firstEmpty_some {g : Grid} {p : Fin 9 × Fin 9}
    (h : firstEmpty g = some p) : g p.1 p.2 = 0 := by
  have := List.find?_some h
  simpa using this

lemma firstEmpty_none {g : Grid} (h : firstEmpty g = none) : isFull g := by
  intro r c
  have := List.find?_eq_none.mp h (r, c) (mem_allPos (r, c))
  simpa using this

lemma firstEmpty_of_isFull {g : Grid} (h : isFull g) : firstEmpty g = none := by
  refine List.find?_eq_none.mpr (fun p _ => ?_)
  simpa using h p.1 p.2

lemma setCell_at (g : Grid) (r c : Fin 9) (v : ℕ) : setCell g r c v r c = v := by
  simp [setCell]

lemma setCell_ne (g : Grid) {r c r' c' : Fin 9} (v : ℕ)
    (h : ¬(r' = r ∧ c' = c)) : setCell g r c v r' c' = g r' c' := if_neg h

lemma setCell_pair_ne (g : Grid) {r c : Fin 9} (v : ℕ) {p : Fin 9 × Fin 9}
    (h : p ≠ (r, c)) : setCell g r c v p.1 p.2 = g p.1 p.2 := by
  refine setCell_ne g v (fun hc => h ?_)
  exact Prod.ext hc.1 hc.2

lemma setCell_setCell (g : Grid) (r c : Fin 9) (v w : ℕ) :
    setCell (setCell g r c v) r c w = setCell g r c w := by
  funext r' c'
  unfold setCell
  by_cases h : r' = r ∧ c' = c <;> simp [h]

lemma setCell_eq_self {g : Grid} {r c : Fin 9} {v : ℕ} (h : g r c = v) :
    setCell g r c v = g := by
  funext r' c'
  unfold setCell
  by_cases h2 : r' = r ∧ c' = c
  · obtain ⟨rfl, rfl⟩ := h2
    simp [h]
  · simp [h2]

lemma setCell_restore (g : Grid) (r c : Fin 9) :
    setCell (setCell g r c 0) r c (g r c) = g := by
  rw [setCell_setCell]
  exact setCell_eq_self rfl

lemma countZeros_eq_countP (g : Grid) :
    countZeros g = allPos.countP (fun p => g p.1 p.2 == 0) := by
  rw [countZeros, List.countP_eq_length_filter]

lemma countZeros_le (g : Grid) : countZeros g ≤ 81 := by
  rw [countZeros_eq_countP]
  calc allPos.countP (fun p => g p.1 p.2 == 0) ≤ allPos.length :=
        List.countP_le_length _
    _ = 81 := by decide

lemma countP_congr_eq {α : Type} {p q : α → Bool} :
    ∀ {l : List α}, (∀ a ∈ l, p a = q a) → l.countP p = l.countP q :=
  fun h => List.countP_congr (fun x hx => by rw [h x hx])

lemma countZeros_setCell_split (g : Grid) (r c : Fin 9) (v : ℕ) :
    countZeros (setCell g r c v) + (if g r c = 0 then 1 else 0) =
      countZeros g + (if v = 0 then 1 else 0) := by
  obtain ⟨s, t, hst⟩ := List.append_of_mem (mem_allPos (r, c))
  have hnd : allPos.Nodup := nodup_allPos
  rw [hst] at hnd
  have hns : (r, c) ∉ s := fun hm =>
    (List.disjoint_of_nodup_append hnd) hm (List.mem_cons_self _ _)
  have hnt : (r, c) ∉ t := ((List.nodup_append.mp hnd).2.1).not_mem
  have hiff : ∀ g' : Grid,
      (allPos.countP (fun p => g' p.1 p.2 == 0)) =
        s.countP (fun p => g' p.1 p.2 == 0) + t.countP (fun p => g' p.1 p.2 == 0)
          + (if g' r c = 0 then 1 else 0) := by
    intro g'
    rw [hst, List.countP_append, List.countP_cons]
    simp only [beq_iff_eq]
    omega
  have hs : ∀ p ∈ s, (setCell g r c v p.1 p.2 == 0) = (g p.1 p.2 == 0) := by
    intro p hp
    rw [setCell_pair_ne g v (fun he => hns (he ▸ hp))]
  have ht : ∀ p ∈ t, (setCell g r c v p.1 p.2 == 0) = (g p.1 p.2 == 0) := by
    intro p hp
    rw [setCell_pair_ne g v (fun he => hnt (he ▸ hp))]
  rw [countZeros_eq_countP, countZeros_eq_countP, hiff, hiff,
    countP_congr_eq hs, countP_congr_eq ht, setCell_at]
  omega

lemma countZeros_setCell_lt {g : Grid} {r c : Fin 9} {v : ℕ}
    (h0 : g r c = 0) (hv : v ≠ 0) :
    countZeros (setCell g r c v) < countZeros g := by
  have := countZeros_setCell_split g r c v
  rw [if_pos h0, if_neg hv] at this
  omega

lemma countZeros_setCell_succ {g : Grid} {r c : Fin 9} {v : ℕ}
    (h0 : g r c = 0) (hv : v ≠ 0) :
    countZeros (setCell g r c v) + 1 = countZeros g := by
  have := countZeros_setCell_split g r c v
  rw [if_pos h0, if_neg hv] at this
  omega

lemma countZeros_setCell_zero_le (g : Grid) (r c : Fin 9) :
    countZeros (setCell g r c 0) ≤ countZeros g + 1 := by
  have := countZeros_setCell_split g r c 0
  simp at this
  omega

/-! ### Characterisation of the constraint checker -/

/-- `isValid` returns `false` exactly when the value occurs somewhere
in the scanned row, column or box — the target cell included. -/
lemma isValid_eq_false_iff (g : Grid) (r c : Fin 9) (v : ℕ) :
    isValid g r c v = false ↔
      (∃ j, g r j = v) ∨ (∃ i, g i c = v) ∨
        (∃ i j, g (boxIdx r i) (boxIdx c j) = v) := by
  unfold isValid
  repeat' split
  all_goals simp_all [List.any_eq_true]

lemma isValid_eq_true_iff (g : Grid) (r c : Fin 9) (v : ℕ) :
    isValid g r c v = true ↔
      ¬((∃ j, g r j = v) ∨ (∃ i, g i c = v) ∨
        (∃ i j, g (boxIdx r i) (boxIdx c j) = v)) := by
  rw [← isValid_eq_false_iff g r c v]
  cases h : isValid g r c v <;> simp [h]

lemma ne_zero_of_isValid {g : Grid} {r c : Fin 9} {v : ℕ}
    (h0 : g r c = 0) (hv : isValid g r c v = true) : v ≠ 0 := by
  intro hveq
  rw [isValid_eq_true_iff] at hv
  exact hv (Or.inl ⟨c, by rw [h0, hveq]⟩)

lemma boxIdx_div (a : Fin 9) (i : Fin 3) : (boxIdx a i).val / 3 = a.val / 3 := by
  simp only [boxIdx]
  omega

lemma exists_boxIdx {a b : Fin 9} (h : b.val / 3 = a.val / 3) :
    ∃ i : Fin 3, boxIdx a i = b := by
  refine ⟨⟨b.val % 3, Nat.mod_lt _ (by norm_num)⟩, ?_⟩
  apply Fin.ext
  simp only [boxIdx]
  omega

/-! ### Consistency of a grid -/

/-- Two distinct positions constrain each other: same row, same
column, or same 3×3 box. -/
def sees (p q : Fin 9 × Fin 9) : Prop :=
  p ≠ q ∧ (p.1 = q.1 ∨ p.2 = q.2 ∨
    (p.1.val / 3 = q.1.val / 3 ∧ p.2.val / 3 = q.2.val / 3))

instance (p q : Fin 9 × Fin 9) : Decidable (sees p q) := by
  unfold sees; infer_instance

lemma sees_symm {p q : Fin 9 × Fin 9} (h : sees p q) : sees q p := by
  obtain ⟨hne, hu⟩ := h
  exact ⟨fun he => hne he.symm, by tauto⟩

/-- No digit repeats among the filled cells of any row, column or box
(the Sudoku invariant of a partially filled grid). -/
def consistent (g : Grid) : Prop :=
  ∀ p q : Fin 9 × Fin 9, sees p q → g p.1 p.2 ≠ 0 → g p.1 p.2 ≠ g q.1 q.2

instance (g : Grid) : Decidable (consistent g) := by
  unfold consistent; infer_instance

/-- At an empty cell, `isValid` accepts a nonzero value exactly when
no constraining cell already holds it. -/
lemma isValid_true_iff_sees {g : Grid} {r c : Fin 9} {v : ℕ}
    (h0 : g r c = 0) (hv0 : v ≠ 0) :
    isValid g r c v = true ↔ ∀ q, sees (r, c) q → g q.1 q.2 ≠ v := by
  rw [isValid_eq_true_iff]
  constructor
  · rintro h ⟨q1, q2⟩ ⟨hne, hu⟩ hqv
    refine h ?_
    rcases hu with h1 | h2 | h3
    · have h1' : r = q1 := h1
      exact Or.inl ⟨q2, by rw [h1']; exact hqv⟩
    · have h2' : c = q2 := h2
      exact Or.inr (Or.inl ⟨q1, by rw [h2']; exact hqv⟩)
    · have h31 : q1.val / 3 = r.val / 3 := (h3.1 : r.val / 3 = q1.val / 3).symm
      have h32 : q2.val / 3 = c.val / 3 := (h3.2 : c.val / 3 = q2.val / 3).symm
      obtain ⟨i, hi⟩ := exists_boxIdx h31
      obtain ⟨j, hj⟩ := exists_boxIdx h32
      exact Or.inr (Or.inr ⟨i, j, by rw [hi, hj]; exact hqv⟩)
  · intro h hocc
    rcases hocc with ⟨j, hj⟩ | ⟨i, hi⟩ | ⟨i, j, hij⟩
    · by_cases hjc : j = c
      · rw [hjc, h0] at hj
        exact hv0 hj.symm
      · refine absurd hj (h (r, j) ⟨?_, Or.inl rfl⟩)
        intro he
        exact hjc (congrArg Prod.snd he).symm
    · by_cases hir : i = r
      · rw [hir, h0] at hi
        exact hv0 hi.symm
      · refine absurd hi (h (i, c) ⟨?_, Or.inr (Or.inl rfl)⟩)
        intro he
        exact hir (congrArg Prod.fst he).symm
    · by_cases hec : boxIdx r i = r ∧ boxIdx c j = c
      · rw [hec.1, hec.2, h0] at hij
        exact hv0 hij.symm
      · refine absurd hij (h (boxIdx r i, boxIdx c j)
          ⟨?_, Or.inr (Or.inr ⟨(boxIdx_div r i).symm, (boxIdx_div c j).symm⟩)⟩)
        intro he
        exact hec ⟨(congrArg Prod.fst he).symm, (congrArg Prod.snd he).symm⟩

/-! ### The counting search: restoration and counter bounds -/

lemma solveCands_snd {next : Grid → ℕ → ℕ × Grid}
    (hnext : ∀ g' count', (next g' count').2 = g') :
    ∀ (cands : List ℕ) (g : Grid) (r c : Fin 9) (count : ℕ), g r c = 0 →
      (solveCands next cands g r c count).2 = g := by
  intro cands
  induction cands with
  | nil => intro g r c count _; rfl
  | cons v rest ih =>
    intro g r c count h0
    by_cases hv : isValid g r c v = true
    · have hres : setCell (next (setCell g r c v) count).2 r c 0 = g := by
        rw [hnext, setCell_setCell]
        exact setCell_eq_self h0
      simp only [solveCands, hv, if_true]
      rw [hres]
      exact ih g r c _ h0
    · simp only [solveCands, hv]
      simp only [Bool.false_eq_true, if_false]
      exact ih g r c count h0

/-- The inner `solve` of `hasUniqueSolution` always restores the grid
it was handed, whatever the fuel and the starting counter. -/
lemma solveGo_snd : ∀ (fuel : ℕ) (g : Grid) (count : ℕ),
    (solveGo fuel g count).2 = g := by
  intro fuel
  induction fuel with
  | zero => intro g count; rfl
  | succ f ih =>
    intro g count
    by_cases hc : 1 < count
    · simp [solveGo, hc]
    · cases hfe : firstEmpty g with
      | none => simp [solveGo, hc, hfe]
      | some p =>
        obtain ⟨r, c⟩ := p
        have h0 : g r c = 0 := firstEmpty_some hfe
        simp only [solveGo, hc, if_false, hfe]
        exact solveCands_snd (fun g' count' => ih g' count') _ g r c count h0

lemma solveGo_of_exceeded {fuel : ℕ} {g : Grid} {count : ℕ} (h : 1 < count) :
    solveGo fuel g count = (count, g) := by
  cases fuel <;> simp [solveGo, h]

lemma solveCands_fst_le {next : Grid → ℕ → ℕ × Grid}
    (hnext : ∀ g' count', count' ≤ 2 → (next g' count').1 ≤ 2) :
    ∀ (cands : List ℕ) (g : Grid) (r c : Fin 9) (count : ℕ), count ≤ 2 →
      (solveCands next cands g r c count).1 ≤ 2 := by
  intro cands
  induction cands with
  | nil => intro g r c count h; exact h
  | cons v rest ih =>
    intro g r c count h
    by_cases hv : isValid g r c v = true
    · simp only [solveCands, hv, if_true]
      exact ih _ r c _ (hnext _ _ h)
    · simp only [solveCands, hv]
      simp only [Bool.false_eq_true, if_false]
      exact ih g r c count h

/-- The solution counter of the counting search never exceeds 2 when
it starts at most at 2. -/
lemma solveGo_fst_le : ∀ (fuel : ℕ) (g : Grid) (count : ℕ), count ≤ 2 →
    (solveGo fuel g count).1 ≤ 2 := by
  intro fuel
  induction fuel with
  | zero => intro g count h; exact h
  | succ f ih =>
    intro g count h
    by_cases hc : 1 < count
    · simpa [solveGo, hc] using h
    · cases hfe : firstEmpty g with
      | none =>
        simp only [solveGo, hc, if_false, hfe]
        omega
      | some p =>
        obtain ⟨r, c⟩ := p
        simp only [solveGo, hc, if_false, hfe]
        exact solveCands_fst_le (fun g' c' hc' => ih g' c' hc') _ g r c count h

/-- On a grid with no empty cell the counting search just increments
the counter once. -/
lemma solveGo_isFull {g : Grid} (h : isFull g) (fuel : ℕ) :
    solveGo (fuel + 1) g 0 = (1, g) := by
  have hfe : firstEmpty g = none := firstEmpty_of_isFull h
  simp [solveGo, hfe]

/-! ### The filling search: restoration on failure -/

lemma fillCands_restore {next : Grid → ℕ → Bool × Grid × ℕ}
    (hnext : ∀ g' k', (next g' k').1 = false → (next g' k').2.1 = g') :
    ∀ (cands : List ℕ) (g : Grid) (r c : Fin 9) (k : ℕ), g r c = 0 →
      (fillCands next cands g r c k).1 = false →
      (fillCands next cands g r c k).2.1 = g := by
  intro cands
  induction cands with
  | nil => intro g r c k _ _; rfl
  | cons v rest ih =>
    intro g r c k h0 hfail
    by_cases hv : isValid g r c v = true
    · rcases hn : next (setCell g r c v) k with ⟨b, g2, k2⟩
      cases b with
      | true =>
        simp only [fillCands, hv, if_true, hn] at hfail
        exact Bool.noConfusion hfail
      | false =>
        have hg2 : g2 = setCell g r c v := by
          have := hnext (setCell g r c v) k
          rw [hn] at this
          exact this rfl
        have hres : setCell g2 r c 0 = g := by
          rw [hg2, setCell_setCell]
          exact setCell_eq_self h0
        simp only [fillCands, hv, if_true, hn] at hfail ⊢
        rw [hres] at hfail ⊢
        exact ih g r c k2 h0 hfail
    · simp only [fillCands, hv] at hfail ⊢
      simp only [Bool.false_eq_true, if_false] at hfail ⊢
      exact ih g r c k h0 hfail

/-- When the filling search fails it hands back the grid unchanged:
every trial write has been undone. -/
lemma fillGo_restore (supply : ℕ → List ℕ) :
    ∀ (fuel : ℕ) (g : Grid) (k : ℕ),
      (fillGo supply fuel g k).1 = false → (fillGo supply fuel g k).2.1 = g := by
  intro fuel
  induction fuel with
  | zero => intro g k _; rfl
  | succ f ih =>
    intro g k hfail
    cases hfe : firstEmpty g with
    | none => simp [fillGo, hfe] at hfail
    | some p =>
      obtain ⟨r, c⟩ := p
      have h0 : g r c = 0 := firstEmpty_some hfe
      simp only [fillGo, hfe] at hfail ⊢
      exact fillCands_restore (fun g' k' => ih g' k') _ g r c (k + 1) h0 hfail

/-! ### Soundness of the filling search -/

/-- Every cell value is a digit (at most 9). -/
def bounded (g : Grid) : Prop := ∀ r c : Fin 9, g r c ≤ 9

instance (g : Grid) : Decidable (bounded g) := by unfold bounded; infer_instance

lemma bounded_setCell {g : Grid} {v : ℕ} (hg : bounded g) (r c : Fin 9)
    (hv : v ≤ 9) : bounded (setCell g r c v) := by
  intro r' c'
  unfold setCell
  by_cases h : r' = r ∧ c' = c <;> simp [h, hv, hg r' c']

lemma consistent_setCell {g : Grid} {r c : Fin 9} {v : ℕ}
    (hg : consistent g) (h0 : g r c = 0) (hv : isValid g r c v = true) :
    consistent (setCell g r c v) := by
  have hv0 : v ≠ 0 := ne_zero_of_isValid h0 hv
  have hsee := (isValid_true_iff_sees h0 hv0).mp hv
  intro p q hpq hp
  by_cases hpc : p = (r, c)
  · by_cases hqc : q = (r, c)
    · exact absurd (hpc.trans hqc.symm) hpq.1
    · rw [hpc]
      rw [hpc] at hpq
      rw [setCell_pair_ne g v hqc]
      have hrc : setCell g r c v (r, c).1 (r, c).2 = v := setCell_at g r c v
      rw [hrc]
      exact fun he => hsee q hpq he.symm
  · rw [setCell_pair_ne g v hpc] at hp ⊢
    by_cases hqc : q = (r, c)
    · rw [hqc, (setCell_at g r c v : setCell g r c v (r, c).1 (r, c).2 = v)]
      exact fun he => hsee p (sees_symm (hqc ▸ hpq)) he
    · rw [setCell_pair_ne g v hqc]
      exact hg p q hpq hp

/-- On success the filling search yields a full, bounded, consistent
grid, provided the input grid was consistent and bounded and the
candidate lists hold digits only. -/
lemma fillCands_sound {next : Grid → ℕ → Bool × Grid × ℕ}
    (hnextR : ∀ g' k', (next g' k').1 = false → (next g' k').2.1 = g')
    (hnextS : ∀ g' k', consistent g' → bounded g' → (next g' k').1 = true →
      consistent (next g' k').2.1 ∧ bounded (next g' k').2.1 ∧ isFull (next g' k').2.1) :
    ∀ (cands : List ℕ) (g : Grid) (r c : Fin 9) (k : ℕ),
      (∀ v ∈ cands, v ≤ 9) → g r c = 0 → consistent g → bounded g →
      (fillCands next cands g r c k).1 = true →
      consistent (fillCands next cands g r c k).2.1 ∧
        bounded (fillCands next cands g r c k).2.1 ∧
        isFull (fillCands next cands g r c k).2.1 := by
  intro cands
  induction cands with
  | nil =>
    intro g r c k _ _ _ _ hsucc
    exact Bool.noConfusion hsucc
  | cons v rest ih =>
    intro g r c k hc9 h0 hcons hbnd hsucc
    by_cases hv : isValid g r c v = true
    · rcases hn : next (setCell g r c v) k with ⟨b, g2, k2⟩
      have hconsS : consistent (setCell g r c v) := consistent_setCell hcons h0 hv
      have hbndS : bounded (setCell g r c v) :=
        bounded_setCell hbnd r c (hc9 v (List.mem_cons_self v rest))
      cases b with
      | true =>
        have := hnextS (setCell g r c v) k hconsS hbndS (by rw [hn])
        rw [hn] at this
        simp only [fillCands, hv, if_true, hn]
        exact this
      | false =>
        have hg2 : g2 = setCell g r c v := by
          have := hnextR (setCell g r c v) k
          rw [hn] at this
          exact this rfl
        have hres : setCell g2 r c 0 = g := by
          rw [hg2, setCell_setCell]
          exact setCell_eq_self h0
        simp only [fillCands, hv, if_true, hn] at hsucc ⊢
        rw [hres] at hsucc ⊢
        exact ih g r c k2 (fun w hw => hc9 w (List.mem_cons_of_mem v hw)) h0 hcons hbnd hsucc
    · simp only [fillCands, hv] at hsucc ⊢
      simp only [Bool.false_eq_true, if_false] at hsucc ⊢
      exact ih g r c k (fun w hw => hc9 w (List.mem_cons_of_mem v hw)) h0 hcons hbnd hsucc

lemma fillGo_sound {supply : ℕ → List ℕ}
    (hsup : ∀ k v, v ∈ supply k → v ≤ 9) :
    ∀ (fuel : ℕ) (g : Grid) (k : ℕ), consistent g → bounded g →
      (fillGo supply fuel g k).1 = true →
      consistent (fillGo supply fuel g k).2.1 ∧
        bounded (fillGo supply fuel g k).2.1 ∧
        isFull (fillGo supply fuel g k).2.1 := by
  intro fuel
  induction fuel with
  | zero =>
    intro g k _ _ hsucc
    exact Bool.noConfusion hsucc
  | succ f ih =>
    intro g k hcons hbnd hsucc
    cases hfe : firstEmpty g with
    | none =>
      simp only [fillGo, hfe] at hsucc ⊢
      exact ⟨hcons, hbnd, firstEmpty_none hfe⟩
    | some p =>
      obtain ⟨r, c⟩ := p
      have h0 : g r c = 0 := firstEmpty_some hfe
      simp only [fillGo, hfe] at hsucc ⊢
      exact fillCands_sound (fun g' k' => fillGo_restore supply f g' k')
        (fun g' k' => ih g' k') (supply k) g r c (k + 1)
        (fun v hv => hsup k v hv) h0 hcons hbnd hsucc

/-! ### Completeness of the filling search -/

/-- `sol` is a full, bounded, consistent grid that agrees with `g` on
every filled cell of `g`: a solution of the partial grid `g`. -/
def completes (sol g : Grid) : Prop :=
  (∀ r c : Fin 9, g r c ≠ 0 → sol r c = g r c) ∧
    isFull sol ∧ bounded sol ∧ consistent sol

lemma isValid_of_completes {sol g : Grid} {r c : Fin 9}
    (hc : completes sol g) (h0 : g r c = 0) : isValid g r c (sol r c) = true := by
  rw [isValid_true_iff_sees h0 (hc.2.1 r c)]
  intro q hsq hqv
  by_cases hq0 : g q.1 q.2 = 0
  · rw [hq0] at hqv
    exact hc.2.1 r c hqv.symm
  · have hsq' : sol q.1 q.2 = g q.1 q.2 := hc.1 q.1 q.2 hq0
    exact hc.2.2.2 (r, c) q hsq (hc.2.1 r c) (by rw [hsq', hqv])

lemma completes_setCell {sol g : Grid} {r c : Fin 9}
    (hc : completes sol g) (h0 : g r c = 0) :
    completes sol (setCell g r c (sol r c)) := by
  refine ⟨?_, hc.2⟩
  intro r' c' hne
  by_cases h : r' = r ∧ c' = c
  · obtain ⟨rfl, rfl⟩ := h
    rw [setCell_at]
  · rw [setCell_ne g _ h] at hne ⊢
    exact hc.1 r' c' hne

/-- If some candidate of the list is the value the solution `sol` puts
at the scanned empty cell, and filling that value makes the recursive
search succeed, then the candidate loop succeeds. -/
lemma fillCands_complete {sol : Grid} {next : Grid → ℕ → Bool × Grid × ℕ}
    (hnextR : ∀ g' k', (next g' k').1 = false → (next g' k').2.1 = g') :
    ∀ (cands : List ℕ) (g : Grid) (r c : Fin 9) (k : ℕ), g r c = 0 →
      completes sol g →
      (∀ k', (next (setCell g r c (sol r c)) k').1 = true) →
      sol r c ∈ cands →
      (fillCands next cands g r c k).1 = true := by
  intro cands
  induction cands with
  | nil =>
    intro g r c k _ _ _ hmem
    exact absurd hmem (List.not_mem_nil _)
  | cons v rest ih =>
    intro g r c k h0 hcomp hnextC hmem
    by_cases hveq : v = sol r c
    · have hv : isValid g r c v = true := by
        rw [hveq]
        exact isValid_of_completes hcomp h0
      rcases hn : next (setCell g r c v) k with ⟨b, g2, k2⟩
      cases b with
      | true => simp [fillCands, hv, hn]
      | false =>
        have := hnextC k
        rw [← hveq, hn] at this
        exact Bool.noConfusion this
    · have hmem' : sol r c ∈ rest := by
        rcases List.mem_cons.mp hmem with he | hm
        · exact absurd he.symm hveq
        · exact hm
      by_cases hv : isValid g r c v = true
      · rcases hn : next (setCell g r c v) k with ⟨b, g2, k2⟩
        cases b with
        | true => simp [fillCands, hv, hn]
        | false =>
          have hg2 : g2 = setCell g r c v := by
            have := hnextR (setCell g r c v) k
            rw [hn] at this
            exact this rfl
          have hres : setCell g2 r c 0 = g := by
            rw [hg2, setCell_setCell]
            exact setCell_eq_self h0
          simp only [fillCands, hv, if_true, hn]
          rw [hres]
          exact ih g r c k2 h0 hcomp hnextC hmem'
      · simp only [fillCands, hv]
        simp only [Bool.false_eq_true, if_false]
        exact ih g r c k h0 hcomp hnextC hmem'

lemma countZeros_pos_of_empty {g : Grid} {r c : Fin 9} (h0 : g r c = 0) :
    0 < countZeros g := by
  have := countZeros_setCell_split g r c 1
  rw [if_pos h0, if_neg (by omega : (1 : ℕ) ≠ 0)] at this
  omega

/-- Completeness: with enough fuel, candidate lists that are
permutations of the digits 1–9, and a solvable input grid, the filling
search succeeds. -/
lemma fillGo_complete {supply : ℕ → List ℕ} {sol : Grid}
    (hsup : ∀ k, List.Perm (supply k) [1, 2, 3, 4, 5, 6, 7, 8, 9]) :
    ∀ (fuel : ℕ) (g : Grid) (k : ℕ), countZeros g < fuel →
      completes sol g → (fillGo supply fuel g k).1 = true := by
  intro fuel
  induction fuel with
  | zero =>
    intro g k hfuel _
    exact absurd hfuel (Nat.not_lt_zero _)
  | succ f ih =>
    intro g k hfuel hcomp
    cases hfe : firstEmpty g with
    | none => simp [fillGo, hfe]
    | some p =>
      obtain ⟨r, c⟩ := p
      have h0 : g r c = 0 := firstEmpty_some hfe
      have hv0 : sol r c ≠ 0 := hcomp.2.1 r c
      have hcz : countZeros (setCell g r c (sol r c)) + 1 = countZeros g :=
        countZeros_setCell_succ h0 hv0
      simp only [fillGo, hfe]
      refine fillCands_complete (fun g' k' => fillGo_restore supply f g' k')
        (supply k) g r c (k + 1) h0 hcomp ?_ ?_
      · intro k'
        exact ih (setCell g r c (sol r c)) k' (by omega) (completes_setCell hcomp h0)
      · rw [(hsup k).mem_iff]
        have h9 : sol r c ≤ 9 := hcomp.2.2.1 r c
        simp only [List.mem_cons, List.not_mem_nil]
        omega

/-! ### Rows, columns and boxes as lists -/

/-- Row or column index of the `i`-th line of the 3×3 band `a`. -/
def boxPos (a : Fin 3) (i : Fin 3) : Fin 9 := ⟨a.val * 3 + i.val, by omega⟩

/-- The nine `(i, j)` offsets inside a 3×3 box. -/
def allPairs3 : List (Fin 3 × Fin 3) :=
  (List.finRange 3).flatMap (fun i => (List.finRange 3).map (fun j => (i, j)))

/-- The nine values of row `r`. -/
def rowList (g : Grid) (r : Fin 9) : List ℕ :=
  (List.finRange 9).map (fun c => g r c)

/-- The nine values of column `c`. -/
def colList (g : Grid) (c : Fin 9) : List ℕ :=
  (List.finRange 9).map (fun r => g r c)

/-- The nine values of the 3×3 box in band `a`, stack `b`. -/
def boxList (g : Grid) (a b : Fin 3) : List ℕ :=
  allPairs3.map (fun q => g (boxPos a q.1) (boxPos b q.2))

lemma boxPos_div (a : Fin 3) (i : Fin 3) : (boxPos a i).val / 3 = a.val := by
  simp only [boxPos]
  omega

lemma boxPos_inj {a : Fin 3} {i j : Fin 3} (h : boxPos a i = boxPos a j) :
    i = j := by
  have := congrArg Fin.val h
  simp only [boxPos] at this
  exact Fin.ext (by omega)

lemma perm_digits {l : List ℕ} (hn : l.Nodup)
    (hb : ∀ v ∈ l, 1 ≤ v ∧ v ≤ 9) (hl : l.length = 9) :
    List.Perm l [1, 2, 3, 4, 5, 6, 7, 8, 9] := by
  refine List.Subperm.perm_of_length_le (List.subperm_of_subset hn ?_)
    (by rw [hl]; decide)
  intro v hv
  have := hb v hv
  simp only [List.mem_cons, List.not_mem_nil, or_false]
  omega

lemma rowList_perm {g : Grid} (hf : isFull g) (hb : bounded g)
    (hc : consistent g) (r : Fin 9) :
    List.Perm (rowList g r) [1, 2, 3, 4, 5, 6, 7, 8, 9] := by
  refine perm_digits ?_ ?_ (by simp [rowList])
  · refine List.Nodup.map_on ?_ (List.nodup_finRange 9)
    intro x _ y _ hxy
    by_contra hne
    refine hc (r, x) (r, y) ⟨?_, Or.inl rfl⟩ (hf r x) hxy
    intro he
    exact hne (congrArg Prod.snd he)
  · intro v hv
    obtain ⟨c, _, rfl⟩ := List.mem_map.mp hv
    exact ⟨Nat.one_le_iff_ne_zero.mpr (hf r c), hb r c⟩

lemma colList_perm {g : Grid} (hf : isFull g) (hb : bounded g)
    (hc : consistent g) (c : Fin 9) :
    List.Perm (colList g c) [1, 2, 3, 4, 5, 6, 7, 8, 9] := by
  refine perm_digits ?_ ?_ (by simp [colList])
  · refine List.Nodup.map_on ?_ (List.nodup_finRange 9)
    intro x _ y _ hxy
    by_contra hne
    refine hc (x, c) (y, c) ⟨?_, Or.inr (Or.inl rfl)⟩ (hf x c) hxy
    intro he
    exact hne (congrArg Prod.fst he)
  · intro v hv
    obtain ⟨r, _, rfl⟩ := List.mem_map.mp hv
    exact ⟨Nat.one_le_iff_ne_zero.mpr (hf r c), hb r c⟩

lemma boxList_perm {g : Grid} (hf : isFull g) (hb : bounded g)
    (hc : consistent g) (a b : Fin 3) :
    List.Perm (boxList g a b) [1, 2, 3, 4, 5, 6, 7, 8, 9] := by
  refine perm_digits ?_ ?_ (by simp [boxList, allPairs3]; decide)
  · refine List.Nodup.map_on ?_ (by decide)
    intro x _ y _ hxy
    by_contra hne
    refine hc (boxPos a x.1, boxPos b x.2) (boxPos a y.1, boxPos b y.2)
      ⟨?_, Or.inr (Or.inr ⟨?_, ?_⟩)⟩ (hf _ _) hxy
    · intro he
      refine hne (Prod.ext ?_ ?_)
      · exact boxPos_inj (congrArg Prod.fst he)
      · exact boxPos_inj (congrArg Prod.snd he)
    · rw [boxPos_div, boxPos_div]
    · rw [boxPos_div, boxPos_div]
  · intro v hv
    obtain ⟨q, _, rfl⟩ := List.mem_map.mp hv
    exact ⟨Nat.one_le_iff_ne_zero.mpr (hf _ _), hb _ _⟩

/-! ### A concrete solved grid and properties of the empty grid -/

/-- A concrete fully solved Sudoku grid (the standard cyclic
pattern), used as the completion witness of the empty grid. -/
def solGrid : Grid := fun r c => (r.val * 3 + r.val / 3 + c.val) % 9 + 1

set_option maxRecDepth 100000 in
lemma completes_solGrid_empty : completes solGrid emptyGrid := by
  refine ⟨fun r c h => absurd rfl h, ?_, ?_, ?_⟩
  · decide
  · decide
  · decide

lemma consistent_empty : consistent emptyGrid :=
  fun _ _ _ hp => absurd rfl hp

lemma bounded_empty : bounded emptyGrid := fun _ _ => by norm_num [emptyGrid]

/-! ### Invariants of the removal loop of createPuzzle -/

/-- `g` is a blanked-out version of `b`: every filled cell agrees. -/
def subgrid (g b : Grid) : Prop := ∀ r c : Fin 9, g r c ≠ 0 → g r c = b r c

lemma subgrid_refl (b : Grid) : subgrid b b := fun _ _ _ => rfl

lemma subgrid_trans {g h b : Grid} (h1 : subgrid g h) (h2 : subgrid h b) :
    subgrid g b := by
  intro r c hne
  have e1 : g r c = h r c := h1 r c hne
  rw [e1] at hne
  rw [e1]
  exact h2 r c hne

lemma subgrid_setCell_zero (b : Grid) (r c : Fin 9) :
    subgrid (setCell b r c 0) b := by
  intro r' c' hne
  by_cases h : r' = r ∧ c' = c
  · exact absurd (if_pos h) hne
  · exact if_neg h

/-- Every kept removal preserves uniqueness: the removal loop keeps a
grid on which `hasUniqueSolution` holds. -/
lemma createPuzzleGo_unique (target : ℕ) :
    ∀ (attempts : List (Fin 81)) (b : Grid) (removed : ℕ),
      hasUniqueSolution b = true →
      hasUniqueSolution (createPuzzleGo target attempts b removed) = true := by
  intro attempts
  induction attempts with
  | nil => intro b removed hb; exact hb
  | cons idx rest ih =>
    intro b removed hb
    by_cases hr : removed < target
    · simp only [createPuzzleGo, hr, if_true]
      by_cases hu : hasUniqueSolution
          (setCell b ⟨idx.val / 9, by omega⟩ ⟨idx.val % 9, by omega⟩ 0) = true
      · simp only [hu, if_true]
        exact ih _ _ hu
      · simp only [hu]
        simp only [Bool.false_eq_true, if_false, setCell_restore]
        exact ih b removed hb
    · simp only [createPuzzleGo, hr, if_false]
      exact hb

/-- The removal loop only blanks cells: it returns a subgrid of its
input. -/
lemma createPuzzleGo_subgrid (target : ℕ) :
    ∀ (attempts : List (Fin 81)) (b : Grid) (removed : ℕ),
      subgrid (createPuzzleGo target attempts b removed) b := by
  intro attempts
  induction attempts with
  | nil => intro b removed; exact subgrid_refl b
  | cons idx rest ih =>
    intro b removed
    by_cases hr : removed < target
    · simp only [createPuzzleGo, hr, if_true]
      by_cases hu : hasUniqueSolution
          (setCell b ⟨idx.val / 9, by omega⟩ ⟨idx.val % 9, by omega⟩ 0) = true
      · simp only [hu, if_true]
        exact subgrid_trans (ih _ _) (subgrid_setCell_zero b _ _)
      · simp only [hu]
        simp only [Bool.false_eq_true, if_false, setCell_restore]
        exact ih b removed
    · simp only [createPuzzleGo, hr, if_false]
      exact subgrid_refl b

/-- The removal loop blanks at most one cell per increment of
`removed`, and `removed` never passes `target`. -/
lemma createPuzzleGo_count (target : ℕ) :
    ∀ (attempts : List (Fin 81)) (b : Grid) (removed : ℕ),
      countZeros b ≤ removed → removed ≤ target →
      countZeros (createPuzzleGo target attempts b removed) ≤ target := by
  intro attempts
  induction attempts with
  | nil => intro b removed h1 h2; exact le_trans h1 h2
  | cons idx rest ih =>
    intro b removed h1 h2
    by_cases hr : removed < target
    · simp only [createPuzzleGo, hr, if_true]
      by_cases hu : hasUniqueSolution
          (setCell b ⟨idx.val / 9, by omega⟩ ⟨idx.val % 9, by omega⟩ 0) = true
      · simp only [hu, if_true]
        refine ih _ (removed + 1) ?_ hr
        calc countZeros (setCell b _ _ 0) ≤ countZeros b + 1 :=
              countZeros_setCell_zero_le b _ _
          _ ≤ removed + 1 := by omega
      · simp only [hu]
        simp only [Bool.false_eq_true, if_false, setCell_restore]
        exact ih b removed h1 h2
    · simp only [createPuzzleGo, hr, if_false]
      exact le_trans h1 h2

/-- With target 0 the removal loop exits at once. -/
lemma createPuzzleGo_zeroTarget (attempts : List (Fin 81)) (b : Grid) :
    createPuzzleGo 0 attempts b 0 = b := by
  cases attempts <;> simp [createPuzzleGo]

/-! ### Concrete grids and candidate supplies used as witnesses -/

/-- The constant candidate supply: every shuffle is the identity
permutation of the digits 1–9. -/
def supplyOrdered : ℕ → List ℕ := fun _ => [1, 2, 3, 4, 5, 6, 7, 8, 9]

/-- A full grid holding 5 everywhere — full but violating every
row/column/box constraint. -/
def gAllFive : Grid := fun _ _ => 5

/-- The grid whose only filled cell is a 5 at the top-left corner. -/
def gFive00 : Grid := setCell emptyGrid 0 0 5

/-- An unsatisfiable grid: row 0 holds 1–8 in columns 1–8, cell (1,0)
holds 9, so the empty cell (0,0) has no legal digit. -/
def gUnsat : Grid := fun r c =>
  if r.val = 0 then c.val else if r.val = 1 ∧ c.val = 0 then 9 else 0

/-- Claim C2's reading of the constraint checker, following the
spec's words: the value occurs in the target row, column, or box among
cells OTHER than the target cell itself. -/
def valueElsewhere (g : Grid) (row col : Fin 9) (num : ℕ) : Prop :=
  (∃ c, c ≠ col ∧ g row c = num) ∨ (∃ r, r ≠ row ∧ g r col = num) ∨
    (∃ i j, ¬(boxIdx row i = row ∧ boxIdx col j = col) ∧
      g (boxIdx row i) (boxIdx col j) = num)

instance (g : Grid) (row col : Fin 9) (num : ℕ) :
    Decidable (valueElsewhere g row col num) := by
  unfold valueElsewhere; infer_instance

/-- What the source checker actually tests: the value occurs in the
target row, column, or box, the target cell included. -/
def valueInUnit (g : Grid) (row col : Fin 9) (num : ℕ) : Prop :=
  (∃ c, g row c = num) ∨ (∃ r, g r col = num) ∨
    (∃ i j, g (boxIdx row i) (boxIdx col j) = num)

instance (g : Grid) (row col : Fin 9) (num : ℕ) :
    Decidable (valueInUnit g row col num) := by
  unfold valueInUnit; infer_instance

lemma hasUniqueSolution_of_isFull {g : Grid} (h : isFull g) :
    hasUniqueSolution g = true ∧ (solveGo 82 g 0).1 = 1 := by
  have he : solveGo 82 g 0 = (1, g) := solveGo_isFull h 81
  constructor
  · rw [hasUniqueSolution, he]
    rfl
  · rw [he]

/-! ### The claims -/

/-- C1: for every grid returned by `createPuzzle` from a fully solved
grid and any target removal count, the counting search of
`hasUniqueSolution` reports exactly 1 solution on the returned grid. -/
theorem claim_C1_derived_puzzle_unique (solved : Grid) (target : ℕ)
    (attempts : List (Fin 81)) (hfull : isFull solved) :
    hasUniqueSolution (createPuzzle solved target attempts) = true ∧
      (solveGo 82 (createPuzzle solved target attempts) 0).1 = 1 := by
  have hbase : hasUniqueSolution solved = true :=
    (hasUniqueSolution_of_isFull hfull).1
  have hres : hasUniqueSolution (createPuzzle solved target attempts) = true :=
    createPuzzleGo_unique target attempts solved 0 hbase
  refine ⟨hres, ?_⟩
  rw [hasUniqueSolution] at hres
  simpa using hres

theorem claim_C1_witness :
    isFull gAllFive ∧
      hasUniqueSolution (createPuzzle gAllFive 30 []) = true :=
  ⟨by decide, (claim_C1_derived_puzzle_unique gAllFive 30 [] (by decide)).1⟩

/-- C2 counterexample: at the grid whose only entry is a 5 at (0,0),
`isValid` called on (0,0) with value 5 returns `false` although 5
appears nowhere among the cells other than the target cell, so the
claimed equivalence fails. -/
theorem claim_C2_counterexample :
    ¬(isValid gFive00 0 0 5 = false ↔ valueElsewhere gFive00 0 0 5) := by
  decide

/-- C2 amended: `isValid` returns `false` iff the value already
appears in the target row, the target column, or the target 3×3 box,
the target cell (row,col) itself INCLUDED; otherwise it returns
`true`. -/
theorem claim_C2_isValid_characterisation (g : Grid) (row col : Fin 9) (num : ℕ) :
    isValid g row col num = false ↔ valueInUnit g row col num := by
  rw [valueInUnit]
  exact isValid_eq_false_iff g row col num

/-- C3: started from the all-empty grid, the backtracking fill
succeeds for every sequence of candidate orders (each a permutation of
1..9), and the returned grid is full with every row, column and 3×3
box a permutation of the digits 1..9. -/
theorem claim_C3_generate_solved (supply : ℕ → List ℕ)
    (hsup : ∀ k, List.Perm (supply k) [1, 2, 3, 4, 5, 6, 7, 8, 9]) :
    (fillBoard emptyGrid supply).1 = true ∧
      isFull (generateCompleteSudoku supply) ∧
      (∀ r, List.Perm (rowList (generateCompleteSudoku supply) r)
        [1, 2, 3, 4, 5, 6, 7, 8, 9]) ∧
      (∀ c, List.Perm (colList (generateCompleteSudoku supply) c)
        [1, 2, 3, 4, 5, 6, 7, 8, 9]) ∧
      (∀ a b, List.Perm (boxList (generateCompleteSudoku supply) a b)
        [1, 2, 3, 4, 5, 6, 7, 8, 9]) := by
  have hfuel : countZeros emptyGrid < 82 := by
    have := countZeros_le emptyGrid
    omega
  have hsucc : (fillGo supply 82 emptyGrid 0).1 = true :=
    fillGo_complete hsup 82 emptyGrid 0 hfuel completes_solGrid_empty
  have hle : ∀ k v, v ∈ supply k → v ≤ 9 := by
    intro k v hv
    have := (hsup k).mem_iff.mp hv
    simp only [List.mem_cons, List.not_mem_nil, or_false] at this
    omega
  have hsound := fillGo_sound hle 82 emptyGrid 0 consistent_empty bounded_empty hsucc
  obtain ⟨hcons, hbnd, hfull⟩ := hsound
  refine ⟨hsucc, hfull, ?_, ?_, ?_⟩
  · exact fun r => rowList_perm hfull hbnd hcons r
  · exact fun c => colList_perm hfull hbnd hcons c
  · exact fun a b => boxList_perm hfull hbnd hcons a b

theorem claim_C3_witness :
    List.Perm (supplyOrdered 0) [1, 2, 3, 4, 5, 6, 7, 8, 9] ∧
      (fillBoard emptyGrid supplyOrdered).1 = true ∧
      isFull (generateCompleteSudoku supplyOrdered) :=
  ⟨List.Perm.refl _,
    (claim_C3_generate_solved supplyOrdered (fun _ => List.Perm.refl _)).1,
    (claim_C3_generate_solved supplyOrdered (fun _ => List.Perm.refl _)).2.1⟩

/-- C4: the counting search of `hasUniqueSolution` leaves the grid it
searched identical, cell for cell, to its pre-call state — for every
input grid, fuel and starting counter. -/
theorem claim_C4_counter_restores (fuel : ℕ) (g : Grid) (count : ℕ) :
    (solveGo fuel g count).2 = g :=
  solveGo_snd fuel g count

/-- C5: in counting mode the solution counter is in {0,1,2} at
return: a call entered with a counter above 1 abandons the search at
its top and returns at once, and a run started at 0 (as
`hasUniqueSolution` does) never returns a counter above 2. -/
theorem claim_C5_counter_capped (fuel : ℕ) (g : Grid) (count : ℕ) :
    (1 < count → solveGo fuel g count = (count, g)) ∧
      (count ≤ 2 → (solveGo fuel g count).1 ≤ 2) ∧
      (solveGo 82 g 0).1 ≤ 2 := by
  refine ⟨fun h => solveGo_of_exceeded h, fun h => solveGo_fst_le fuel g count h, ?_⟩
  exact solveGo_fst_le 82 g 0 (by omega)

theorem claim_C5_witness :
    1 < 2 ∧ solveGo 82 gAllFive 2 = (2, gAllFive) ∧
      2 ≤ 2 ∧ (solveGo 82 gAllFive 2).1 ≤ 2 ∧ (solveGo 82 gAllFive 0).1 ≤ 2 :=
  ⟨by decide, (claim_C5_counter_capped 82 gAllFive 2).1 (by decide),
    by decide, (claim_C5_counter_capped 82 gAllFive 2).2.1 (by decide),
    (claim_C5_counter_capped 82 gAllFive 0).2.2⟩

/-- C6: every non-empty cell of a grid returned by `createPuzzle`
equals the corresponding cell of its source grid; the only changes are
cells set to 0. -/
theorem claim_C6_subset_invariant (board : Grid) (target : ℕ)
    (attempts : List (Fin 81)) (r c : Fin 9)
    (h : createPuzzle board target attempts r c ≠ 0) :
    createPuzzle board target attempts r c = board r c :=
  createPuzzleGo_subgrid target attempts board 0 r c h

theorem claim_C6_witness :
    createPuzzle gAllFive 0 [] 0 0 ≠ 0 ∧
      createPuzzle gAllFive 0 [] 0 0 = gAllFive 0 0 :=
  ⟨by decide, claim_C6_subset_invariant gAllFive 0 [] 0 0 (by decide)⟩

/-- C7: from a fully solved input and any target `n` the returned
puzzle has at most `n` empty cells, and with `n = 0` the input grid is
returned unchanged. -/
theorem claim_C7_removal_bound (solved : Grid) (n : ℕ)
    (attempts : List (Fin 81)) :
    (isFull solved → countZeros (createPuzzle solved n attempts) ≤ n) ∧
      createPuzzle solved 0 attempts = solved := by
  constructor
  · intro hfull
    have hz : countZeros solved = 0 := by
      rw [countZeros_eq_countP]
      refine List.countP_eq_zero.mpr ?_
      intro p _
      simpa using hfull p.1 p.2
    exact createPuzzleGo_count n attempts solved 0 (by omega) (by omega)
  · exact createPuzzleGo_zeroTarget attempts solved

theorem claim_C7_witness :
    isFull gAllFive ∧ countZeros (createPuzzle gAllFive 3 []) ≤ 3 ∧
      createPuzzle gAllFive 0 [] = gAllFive :=
  ⟨by decide, (claim_C7_removal_bound gAllFive 3 []).1 (by decide),
    (claim_C7_removal_bound gAllFive 0 []).2⟩

/-- C8: when the backtracking fill fails it hands back the grid in its
exact pre-call state — every trial write has been undone. -/
theorem claim_C8_fill_restores_on_failure (g : Grid) (supply : ℕ → List ℕ)
    (h : (fillBoard g supply).1 = false) : (fillBoard g supply).2.1 = g :=
  fillGo_restore supply 82 g 0 h

theorem claim_C8_witness :
    (fillBoard gUnsat supplyOrdered).1 = false ∧
      (fillBoard gUnsat supplyOrdered).2.1 = gUnsat :=
  ⟨by decide, claim_C8_fill_restores_on_failure gUnsat supplyOrdered (by decide)⟩

/-- C9: the difficulty lookup maps easy to 30, medium to 45, hard to
55, and every other difficulty string to 30. -/
theorem claim_C9_difficulty_lookup (d : String) :
    getCellsToRemove "easy" = 30 ∧ getCellsToRemove "medium" = 45 ∧
      getCellsToRemove "hard" = 55 ∧
      (d ≠ "easy" → d ≠ "medium" → d ≠ "hard" → getCellsToRemove d = 30) := by
  refine ⟨by decide, by decide, by decide, ?_⟩
  intro h1 h2 h3
  rw [getCellsToRemove, if_neg h1, if_neg h2, if_neg h3]

theorem claim_C9_witness :
    ("expert" : String) ≠ "easy" ∧ ("expert" : String) ≠ "medium" ∧
      ("expert" : String) ≠ "hard" ∧ getCellsToRemove "expert" = 30 :=
  ⟨by decide, by decide, by decide,
    (claim_C9_difficulty_lookup "expert").2.2.2 (by decide) (by decide) (by decide)⟩

/-- C10: on every completely filled grid the counting search counts
the handed-in assignment as the single solution without re-validating
it, so `hasUniqueSolution` returns true even on grids that violate the
row/column/box constraints. -/
theorem claim_C10_full_grid_counts_one (g : Grid) (hfull : isFull g) :
    hasUniqueSolution g = true ∧ (solveGo 82 g 0).1 = 1 :=
  hasUniqueSolution_of_isFull hfull

theorem claim_C10_witness :
    isFull gAllFive ∧ ¬ consistent gAllFive ∧
      hasUniqueSolution gAllFive = true :=
  ⟨by decide, by decide, (claim_C10_full_grid_counts_one gAllFive (by decide)).1⟩
